import Mathlib

/-!
Verification of the team-scheduling-system core (src/app.js) against its
natural-language specification.

The JavaScript source is shallowly embedded: the four persisted collections
become a `Store` structure, each `DataManager` / `ScheduleGenerator` /
`NotificationManager` method becomes a pure Lean function threading the
store explicitly, and JS `Date` values (always used at day granularity via
`toISOString().split('T')[0]`) become a calendar `Date` structure with the
standard proleptic-Gregorian month/day rollover that `Date.prototype.setDate`
/ `setMonth` implement.  Nondeterministic inputs (the wall clock used for
fresh ids, `Math.random`) are passed in as explicit oracle parameters.
-/

namespace TeamScheduling

/-! ### Calendar dates

JS `Date` objects in app.js only ever carry a calendar day (they are built
from `yyyy-mm-dd` strings and serialized back the same way), so a date is a
`(year, month, day)` triple, month `1..12`, day `1..daysInMonth`.
Comparison of such dates by timestamp coincides with comparison of
`year*10000 + month*100 + day` (the `key`). -/

structure Date where
  year : Nat
  month : Nat
  day : Nat
deriving DecidableEq

def isLeap (y : Nat) : Bool :=
  (y % 4 == 0 && y % 100 != 0) || y % 400 == 0

def daysInMonth (y m : Nat) : Nat :=
  if m = 2 then (if isLeap y then 29 else 28)
  else if m = 4 ∨ m = 6 ∨ m = 9 ∨ m = 11 then 30
  else 31

def Date.key (d : Date) : Nat :=
  d.year * 10000 + d.month * 100 + d.day

/-- A calendar-valid date, as `Date.prototype` normalization always produces. -/
def Date.Canonical (d : Date) : Prop :=
  1 ≤ d.month ∧ d.month ≤ 12 ∧ 1 ≤ d.day ∧ d.day ≤ daysInMonth d.year d.month

instance (d : Date) : Decidable d.Canonical := by
  unfold Date.Canonical; infer_instance

/-- Advance one day with calendar rollover (`setDate(getDate() + 1)`). -/
def nextDay (d : Date) : Date :=
  if d.day < daysInMonth d.year d.month then ⟨d.year, d.month, d.day + 1⟩
  else if d.month < 12 then ⟨d.year, d.month + 1, 1⟩
  else ⟨d.year + 1, 1, 1⟩

/-- JS `setDate(getDate() + n)`: advance `n` days. -/
def addDays : Nat → Date → Date
  | 0, d => d
  | n + 1, d => addDays n (nextDay d)

/-- Day-overflow normalization after a month add: while the day exceeds the
month length, subtract the month length and move to the next month, exactly
as the JS `Date` timestamp normalization does.  The first argument is fuel;
`fixDayF day y m day` always has enough fuel since each step removes at
least one day. -/
def fixDayF : Nat → Nat → Nat → Nat → Date
  | 0, y, m, day => ⟨y, m, day⟩
  | gas + 1, y, m, day =>
    if daysInMonth y m < day then
      if m < 12 then fixDayF gas y (m + 1) (day - daysInMonth y m)
      else fixDayF gas (y + 1) 1 (day - daysInMonth y m)
    else ⟨y, m, day⟩

/-- JS `setMonth(getMonth() + n)`: standard calendar month-add with rollover
(not clamping).  JS months are 0-based internally, hence the `- 1 / + 1`. -/
def addMonths (n : Nat) (d : Date) : Date :=
  let m0 := d.month - 1 + n
  fixDayF d.day (d.year + m0 / 12) (m0 % 12 + 1) d.day

/-- The date advance at the bottom of the `while` loop in
`generateActivitySchedules`: `days` adds `frequency` days, `weeks` adds
`frequency * 7` days, `months` adds `frequency` calendar months.  An
unrecognized unit falls through every branch and leaves the date unchanged,
as in the source. -/
def stepDate (frequency : Nat) (frequencyUnit : String) (d : Date) : Date :=
  if frequencyUnit = "days" then addDays frequency d
  else if frequencyUnit = "weeks" then addDays (frequency * 7) d
  else if frequencyUnit = "months" then addMonths frequency d
  else d

/-- The stepping dates of the `while (currentDate <= endDate)` loop: emit
`currentDate`, advance with `stepDate`, repeat.  The first argument is fuel;
`endD.key + 1 - cur.key` steps always suffice for a valid activity because
each step strictly increases the key. -/
def occDates : Nat → Nat → String → Date → Date → List Date
  | 0, _, _, _, _ => []
  | gas + 1, f, u, endD, cur =>
    if cur.key ≤ endD.key then cur :: occDates gas f u endD (stepDate f u cur) else []

/-! ### Data model

`Member`, `Activity`, `ScheduleEntry`, `Settings` mirror the record shapes
app.js stores.  `frequency` is the `parseInt(activity.frequency)` value.
Fresh ids (`Date.now().toString()` for members/activities, concatenated
with `Math.random()` for schedule entries) are supplied by the caller as
oracle parameters. -/

structure Member where
  id : String
  name : String
  email : String
  status : String
  participationCount : Nat
deriving DecidableEq

structure Activity where
  id : String
  name : String
  description : String
  frequency : Nat
  frequencyUnit : String
deriving DecidableEq

structure ScheduleEntry where
  id : Nat
  activityId : String
  activityName : String
  memberId : String
  memberName : String
  date : Date
  notified : Bool
deriving DecidableEq

structure Settings where
  algorithm : String
  notificationEnabled : Bool
  notificationDays : Nat
deriving DecidableEq

/-- The four persisted collections of `DataManager`. -/
structure Store where
  members : List Member
  activities : List Activity
  schedules : List ScheduleEntry
  settings : Settings
deriving DecidableEq

def mDefault : Member := ⟨"", "", "", "", 0⟩

/-! ### DataManager operations -/

def getActiveMembers (s : Store) : List Member :=
  s.members.filter (fun m => m.status == "active")

/-- JS `addMember`: assign the fresh id, force `participationCount = 0` and
`status = 'active'`, push, return the stored record. -/
def addMember (s : Store) (newId : String) (m : Member) : Store × Member :=
  let m' : Member := { m with id := newId, participationCount := 0, status := "active" }
  ({ s with members := s.members ++ [m'] }, m')

/-- A partial-fields update object for a member: `some` models a key present
in the JS `updates` object, `none` a key that is absent (so the spread
`{ ...old, ...updates }` keeps the old value). -/
structure MemberPatch where
  id : Option String
  name : Option String
  email : Option String
  status : Option String
  participationCount : Option Nat
deriving DecidableEq

def applyMemberPatch (m : Member) (p : MemberPatch) : Member :=
  { id := p.id.getD m.id
    name := p.name.getD m.name
    email := p.email.getD m.email
    status := p.status.getD m.status
    participationCount := p.participationCount.getD m.participationCount }

/-- JS `updateMember(id, updates)`: find by id, shallow-merge and persist if
found, otherwise return null and change nothing. -/
def updateMember (s : Store) (id : String) (p : MemberPatch) : Store × Option Member :=
  match s.members.findIdx? (fun m => m.id == id) with
  | some i =>
    let m' := applyMemberPatch (s.members.getD i mDefault) p
    ({ s with members := s.members.set i m' }, some m')
  | none => (s, none)

structure ActivityPatch where
  id : Option String
  name : Option String
  description : Option String
  frequency : Option Nat
  frequencyUnit : Option String
deriving DecidableEq

def aDefault : Activity := ⟨"", "", "", 0, ""⟩

def applyActivityPatch (a : Activity) (p : ActivityPatch) : Activity :=
  { id := p.id.getD a.id
    name := p.name.getD a.name
    description := p.description.getD a.description
    frequency := p.frequency.getD a.frequency
    frequencyUnit := p.frequencyUnit.getD a.frequencyUnit }

/-- JS `updateActivity(id, updates)`: same shape as `updateMember`. -/
def updateActivity (s : Store) (id : String) (p : ActivityPatch) : Store × Option Activity :=
  match s.activities.findIdx? (fun a => a.id == id) with
  | some i =>
    let a' := applyActivityPatch (s.activities.getD i aDefault) p
    ({ s with activities := s.activities.set i a' }, some a')
  | none => (s, none)

/-- An export document / import payload: each collection key may be present
(`some`) or absent (`none`); `importData` applies only the present ones. -/
structure ImportPayload where
  members : Option (List Member)
  activities : Option (List Activity)
  schedules : Option (List ScheduleEntry)
  settings : Option Settings
  exportDate : Option String
deriving DecidableEq

/-- JS `exportData()`: all four collections plus an `exportDate` stamp. -/
def exportData (s : Store) (now : String) : ImportPayload :=
  { members := some s.members
    activities := some s.activities
    schedules := some s.schedules
    settings := some s.settings
    exportDate := some now }

/-- JS `importData(data)`: for each present top-level key, replace the
corresponding collection wholesale; absent keys leave it untouched.
`exportDate` is never read. -/
def importData (s : Store) (p : ImportPayload) : Store :=
  let s1 := match p.members with
    | some l => { s with members := l }
    | none => s
  let s2 := match p.activities with
    | some l => { s1 with activities := l }
    | none => s1
  let s3 := match p.schedules with
    | some l => { s2 with schedules := l }
    | none => s2
  match p.settings with
  | some v => { s3 with settings := v }
  | none => s3

/-! ### ScheduleGenerator

The JS generator mutates the shared active-member objects in place, both
through the per-activity working array `sortedMembers` (a shallow copy) and
through `this.members`.  The embedding makes this aliasing explicit: the
live active members are a threaded list `actives`, and the working array is
a list of indices (`order`) into it, so that a `participationCount++`
through one alias is visible through all.  `[...members].sort((a, b) =>
a.participationCount - b.participationCount)` is a stable ascending sort
(guaranteed by ECMAScript), modelled by a stable insertion sort over the
indices. -/

def countAt (actives : List Member) (i : Nat) : Nat :=
  (actives.getD i mDefault).participationCount

/-- Stable insert for the index sort: an incoming (earlier) index goes in
front of the first index whose count is at least its own. -/
def insertIdx (actives : List Member) (i : Nat) : List Nat → List Nat
  | [] => [i]
  | j :: js =>
    if countAt actives i ≤ countAt actives j then i :: j :: js
    else j :: insertIdx actives i js

/-- Stable ascending sort of member indices by current `participationCount`:
the unique output every ECMAScript stable `sort` produces for the comparator
`a.participationCount - b.participationCount`. -/
def sortIdxByCount (actives : List Member) (l : List Nat) : List Nat :=
  l.foldr (insertIdx actives) []

/-- Bump `participationCount` of the member at position `i`
(`assignedMember.participationCount++`, seen through every alias). -/
def incCountAt : Nat → List Member → List Member
  | _, [] => []
  | 0, m :: ms => { m with participationCount := m.participationCount + 1 } :: ms
  | i + 1, m :: ms => m :: incCountAt i ms

/-- The per-occurrence mutable state of `generateActivitySchedules`:
the shared active members, the working index array `sortedMembers`, the
rotation counter `memberIndex`, and the position in the `Math.random`
oracle stream. -/
structure GenSt where
  actives : List Member
  order : List Nat
  memberIndex : Nat
  randK : Nat
deriving DecidableEq

/-- The `switch (algorithm)` member selection.  Returns the chosen index
into `actives` and the updated state (`memberIndex++` for rotation, a fresh
random draw for random, the in-place re-sort for balanced; any other value
falls to the default branch picking `sortedMembers[0]`). -/
def pickMember (alg : String) (rand : Nat → Nat) (st : GenSt) : Nat × GenSt :=
  if alg = "rotation" then
    (st.order.getD (st.memberIndex % st.order.length) 0,
     { st with memberIndex := st.memberIndex + 1 })
  else if alg = "random" then
    (st.order.getD (rand st.randK % st.order.length) 0,
     { st with randK := st.randK + 1 })
  else if alg = "balanced" then
    let order2 := sortIdxByCount st.actives st.order
    (order2.getD 0 0, { st with order := order2 })
  else
    (st.order.getD 0 0, st)

/-- The schedule object pushed for one occurrence (id is set later by
`addSchedule`; `0` is the placeholder). -/
def emitEntry (a : Activity) (actives : List Member) (i : Nat) (d : Date) : ScheduleEntry :=
  { id := 0
    activityId := a.id
    activityName := a.name
    memberId := (actives.getD i mDefault).id
    memberName := (actives.getD i mDefault).name
    date := d
    notified := false }

/-- The `while (currentDate <= endDate)` body: pick a member, push an entry,
increment the member's count, step the date.  Fuel-indexed; with fuel
`endD.key + 1 - cur.key` it is the exact loop for every valid activity
(each valid step strictly increases the key), and on a `frequency = 0` /
unknown-unit activity — where the JS loop never terminates — it truncates. -/
def genLoop (a : Activity) (alg : String) (rand : Nat → Nat) (endD : Date) :
    Nat → Date → GenSt → List ScheduleEntry × GenSt
  | 0, _, st => ([], st)
  | gas + 1, cur, st =>
    if cur.key ≤ endD.key then
      let pick := pickMember alg rand st
      let e := emitEntry a pick.2.actives pick.1 cur
      let st2 : GenSt := { pick.2 with actives := incCountAt pick.1 pick.2.actives }
      let rest := genLoop a alg rand endD gas (stepDate a.frequency a.frequencyUnit cur) st2
      (e :: rest.1, rest.2)
    else ([], st)

/-- JS `generateActivitySchedules(activity, members, startDate, endDate,
algorithm)`: take the sorted snapshot, run the while loop.  Returns the
entries plus the updated shared members and random-stream position. -/
def generateActivitySchedules (a : Activity) (actives : List Member) (startD endD : Date)
    (alg : String) (rand : Nat → Nat) (rk : Nat) :
    List ScheduleEntry × List Member × Nat :=
  let order := sortIdxByCount actives (List.range actives.length)
  let r := genLoop a alg rand endD (endD.key + 1 - startD.key) startD
    { actives := actives, order := order, memberIndex := 0, randK := rk }
  (r.1, r.2.actives, r.2.randK)

/-- JS `activities.forEach(...)`: run each activity against the shared members,
concatenating the per-activity batches in activity iteration order. -/
def runActivities (startD endD : Date) (alg : String) (rand : Nat → Nat) :
    List Activity → List Member → Nat → List ScheduleEntry × List Member × Nat
  | [], actives, rk => ([], actives, rk)
  | a :: as, actives, rk =>
    let r1 := generateActivitySchedules a actives startD endD alg rand rk
    let r2 := runActivities startD endD alg rand as r1.2.1 r1.2.2
    (r1.1 ++ r2.1, r2.2.1, r2.2.2)

/-- JS `addSchedule` gives each pushed entry a fresh id; the oracle is a base
counter, entry `i` of the batch receiving `base + i`. -/
def assignIds : Nat → List ScheduleEntry → List ScheduleEntry
  | _, [] => []
  | base, e :: es => { e with id := base } :: assignIds (base + 1) es

/-- Write the mutated active-member objects back into `this.members`
(the JS arrays alias the same objects; inactive members are untouched). -/
def mergeActive : List Member → List Member → List Member
  | [], _ => []
  | m :: ms, upd =>
    if m.status == "active" then
      match upd with
      | [] => m :: mergeActive ms []
      | u :: us => u :: mergeActive ms us
    else m :: mergeActive ms upd

inductive GenError where
  | NoActiveMembers
  | NoActivities
deriving DecidableEq

/-- JS `ScheduleGenerator.generate(startDate, endDate)`: precondition checks,
clear old schedules, reset active counts, run all activities, persist the
batch (with fresh entry ids) and the updated member counts.  On a
precondition failure the store is returned unchanged — the checks run
before `clearSchedules()`. -/
def generate (s : Store) (startD endD : Date) (rand : Nat → Nat) (idBase : Nat) :
    Except GenError (List ScheduleEntry) × Store :=
  let actives := getActiveMembers s
  if actives.length = 0 then (Except.error GenError.NoActiveMembers, s)
  else if s.activities.length = 0 then (Except.error GenError.NoActivities, s)
  else
    let actives0 := actives.map (fun m => { m with participationCount := 0 })
    let r := runActivities startD endD s.settings.algorithm rand s.activities actives0 0
    let batch := assignIds idBase r.1
    (Except.ok batch,
     { s with schedules := batch, members := mergeActive s.members r.2.1 })

/-- Occurrence count of one activity over the window: the length of its
stepping-date list. -/
def occCount (a : Activity) (startD endD : Date) : Nat :=
  (occDates (endD.key + 1 - startD.key) a.frequency a.frequencyUnit endD startD).length

/-! ### NotificationManager -/

/-- JS `checkUpcomingSchedules()`: no-op when notifications are disabled;
otherwise fire the notify sink for every entry whose date is exactly
`today + notificationDays` and whose `notified` flag is still false, and set
the flag on those entries.  Returns the updated store and the list of
entries handed to the sink. -/
def checkUpcomingSchedules (s : Store) (today : Date) : Store × List ScheduleEntry :=
  if !s.settings.notificationEnabled then (s, [])
  else
    let targetDate := addDays s.settings.notificationDays today
    let fired := s.schedules.filter (fun e => e.date == targetDate && !e.notified)
    let marked := s.schedules.map (fun e =>
      if e.date == targetDate && !e.notified then { e with notified := true } else e)
    ({ s with schedules := marked }, fired)

/-! ### Assignment trace

`genLoopT` is `genLoop` instrumented for stating per-occurrence invariants:
instead of the schedule entry it records, for each occurrence, the shared
active-member list as it stands at the instant of the assignment (before
the chosen member's count increment) together with the chosen index.  It
performs exactly the same state evolution as `genLoop` and projects onto
its entries. -/

def genLoopT (a : Activity) (alg : String) (rand : Nat → Nat) (endD : Date) :
    Nat → Date → GenSt → List (List Member × Nat) × GenSt
  | 0, _, st => ([], st)
  | gas + 1, cur, st =>
    if cur.key ≤ endD.key then
      let pick := pickMember alg rand st
      let st2 : GenSt := { pick.2 with actives := incCountAt pick.1 pick.2.actives }
      let rest := genLoopT a alg rand endD gas (stepDate a.frequency a.frequencyUnit cur) st2
      ((pick.2.actives, pick.1) :: rest.1, rest.2)
    else ([], st)

def runActivitiesT (startD endD : Date) (alg : String) (rand : Nat → Nat) :
    List Activity → List Member → Nat → List (List Member × Nat) × GenSt
  | [], actives, rk => ([], { actives := actives, order := [], memberIndex := 0, randK := rk })
  | a :: as, actives, rk =>
    let r1 := genLoopT a alg rand endD (endD.key + 1 - startD.key) startD
      { actives := actives, order := sortIdxByCount actives (List.range actives.length),
        memberIndex := 0, randK := rk }
    let r2 := runActivitiesT startD endD alg rand as r1.2.actives r1.2.randK
    (r1.1 ++ r2.1, r2.2)

/-- The assignment trace of a full `generate` run (empty when a
precondition check fails and no occurrence is emitted). -/
def genTrace (s : Store) (startD endD : Date) (rand : Nat → Nat) :
    List (List Member × Nat) :=
  let actives := getActiveMembers s
  if actives.length = 0 then []
  else if s.activities.length = 0 then []
  else
    let actives0 := actives.map (fun m => { m with participationCount := 0 })
    (runActivitiesT startD endD s.settings.algorithm rand s.activities actives0 0).1

/-- Sequential `updateMember` calls, for stating invariants over a whole
sequence of updates. -/
def applyMemberUpdates (s : Store) : List (String × MemberPatch) → Store
  | [] => s
  | (id, p) :: rest => applyMemberUpdates (updateMember s id p).1 rest

/-- Sequential `updateActivity` calls. -/
def applyActivityUpdates (s : Store) : List (String × ActivityPatch) → Store
  | [] => s
  | (id, p) :: rest => applyActivityUpdates (updateActivity s id p).1 rest

/-! ### Calendar lemmas -/

theorem daysInMonth_pos (y m : Nat) : 0 < daysInMonth y m := by
  unfold daysInMonth; split_ifs <;> omega

theorem daysInMonth_le31 (y m : Nat) : daysInMonth y m ≤ 31 := by
  unfold daysInMonth; split_ifs <;> omega

theorem nextDay_canonical {d : Date} (h : d.Canonical) : (nextDay d).Canonical := by
  obtain ⟨y, m, day⟩ := d
  obtain ⟨h1, h2, h3, h4⟩ := h
  simp only at h1 h2 h3 h4
  have hp1 := daysInMonth_pos y (m + 1)
  have hp2 := daysInMonth_pos (y + 1) 1
  unfold nextDay
  split_ifs with hd hm <;> simp only [Date.Canonical] at * <;> omega

theorem key_lt_nextDay {d : Date} (h : d.Canonical) : d.key < (nextDay d).key := by
  obtain ⟨y, m, day⟩ := d
  obtain ⟨h1, h2, h3, h4⟩ := h
  simp only at h1 h2 h3 h4
  have hb := daysInMonth_le31 y m
  unfold nextDay
  split_ifs with hd hm <;> simp only [Date.key] at * <;> omega

theorem addDays_canonical {d : Date} (h : d.Canonical) (n : Nat) :
    (addDays n d).Canonical := by
  induction n generalizing d with
  | zero => exact h
  | succ n ih => exact ih (nextDay_canonical h)

theorem key_le_addDays {d : Date} (h : d.Canonical) (n : Nat) :
    d.key ≤ (addDays n d).key := by
  induction n generalizing d with
  | zero => simp [addDays]
  | succ n ih =>
    have h1 := key_lt_nextDay h
    have h2 := ih (nextDay_canonical h)
    simp only [addDays]
    omega

theorem fixDayF_canonical {gas y m day : Nat} (hm1 : 1 ≤ m) (hm2 : m ≤ 12)
    (hd1 : 1 ≤ day) (hd2 : day ≤ gas + daysInMonth y m) :
    (fixDayF gas y m day).Canonical := by
  induction gas generalizing y m day with
  | zero =>
    simp only [fixDayF, Date.Canonical]
    omega
  | succ gas ih =>
    simp only [fixDayF]
    split_ifs with h1 h2
    · have hp := daysInMonth_pos y m
      have hq := daysInMonth_pos y (m + 1)
      exact ih (by omega) (by omega) (by omega) (by omega)
    · have hp := daysInMonth_pos y m
      have hq := daysInMonth_pos (y + 1) 1
      exact ih (by omega) (by omega) (by omega) (by omega)
    · simp only [Date.Canonical]
      omega

theorem fixDayF_key_lb {gas y m day : Nat} (hd : 1 ≤ day) (hm : m ≤ 12) :
    y * 10000 + m * 100 + 1 ≤ (fixDayF gas y m day).key := by
  induction gas generalizing y m day with
  | zero => simp only [fixDayF, Date.key]; omega
  | succ gas ih =>
    simp only [fixDayF]
    split_ifs with h1 h2
    · have hp := daysInMonth_pos y m
      have := @ih y (m + 1) (day - daysInMonth y m) (by omega) (by omega)
      omega
    · have hp := daysInMonth_pos y m
      have := @ih (y + 1) 1 (day - daysInMonth y m) (by omega) (by omega)
      omega
    · simp only [Date.key]; omega

theorem addMonths_canonical {d : Date} (h : d.Canonical) (n : Nat) :
    (addMonths n d).Canonical := by
  obtain ⟨h1, h2, h3, h4⟩ := h
  unfold addMonths
  have hmod : (d.month - 1 + n) % 12 < 12 := Nat.mod_lt _ (by omega)
  have hb := daysInMonth_le31 (d.year + (d.month - 1 + n) / 12) ((d.month - 1 + n) % 12 + 1)
  have hb2 := daysInMonth_pos (d.year + (d.month - 1 + n) / 12) ((d.month - 1 + n) % 12 + 1)
  exact fixDayF_canonical (by omega) (by omega) h3 (by
    have := daysInMonth_le31 d.year d.month
    omega)

theorem key_lt_addMonths {d : Date} (h : d.Canonical) {n : Nat} (hn : 1 ≤ n) :
    d.key < (addMonths n d).key := by
  obtain ⟨h1, h2, h3, h4⟩ := h
  unfold addMonths
  have hkey := @fixDayF_key_lb d.day (d.year + (d.month - 1 + n) / 12)
    ((d.month - 1 + n) % 12 + 1) d.day h3
    (by have := @Nat.mod_lt (d.month - 1 + n) 12 (by omega); omega)
  have hdm := Nat.div_add_mod (d.month - 1 + n) 12
  have hday := daysInMonth_le31 d.year d.month
  simp only [Date.key] at *
  omega

theorem addMonths_zero {d : Date} (h : d.Canonical) : addMonths 0 d = d := by
  obtain ⟨y, m, day⟩ := d
  obtain ⟨h1, h2, h3, h4⟩ := h
  simp only at h1 h2 h3 h4
  have hdiv : (m - 1) / 12 = 0 := Nat.div_eq_of_lt (by omega)
  have hmod : (m - 1) % 12 = m - 1 := Nat.mod_eq_of_lt (by omega)
  have hm : m - 1 + 1 = m := by omega
  simp only [addMonths, Nat.add_zero, hdiv, hmod, hm]
  cases day with
  | zero => omega
  | succ dd =>
    simp only [fixDayF]
    rw [if_neg (by omega)]

theorem stepDate_canonical {d : Date} (h : d.Canonical) (f : Nat) (u : String) :
    (stepDate f u d).Canonical := by
  unfold stepDate
  split_ifs <;> first
    | exact addDays_canonical h _
    | exact addMonths_canonical h _
    | exact h

theorem key_le_stepDate {d : Date} (h : d.Canonical) (f : Nat) (u : String) :
    d.key ≤ (stepDate f u d).key := by
  unfold stepDate
  split_ifs
  · exact key_le_addDays h f
  · exact key_le_addDays h (f * 7)
  · cases f with
    | zero => rw [addMonths_zero h]
    | succ n => exact Nat.le_of_lt (key_lt_addMonths h (by omega))
  · exact Nat.le_refl _

theorem occDates_mem_bounds {gas f : Nat} {u : String} {endD cur x : Date}
    (hc : cur.Canonical) (hx : x ∈ occDates gas f u endD cur) :
    cur.key ≤ x.key ∧ x.key ≤ endD.key := by
  induction gas generalizing cur with
  | zero => simp [occDates] at hx
  | succ gas ih =>
    simp only [occDates] at hx
    split_ifs at hx with hle
    · rcases List.mem_cons.mp hx with h | h
      · subst h; exact ⟨Nat.le_refl _, hle⟩
      · have hstep := key_le_stepDate hc f u
        have := ih (stepDate_canonical hc f u) h
        exact ⟨by omega, this.2⟩
    · simp at hx

/-! ### Loop lemmas: the entries of one activity follow its stepping dates -/

theorem genLoop_map_date (a : Activity) (alg : String) (rand : Nat → Nat) (endD : Date)
    (gas : Nat) : ∀ (cur : Date) (st : GenSt),
    (genLoop a alg rand endD gas cur st).1.map (fun e => e.date)
      = occDates gas a.frequency a.frequencyUnit endD cur := by
  induction gas with
  | zero => intro cur st; rfl
  | succ gas ih =>
    intro cur st
    simp only [genLoop, occDates]
    split_ifs with h
    · simp only [List.map_cons, emitEntry, ih]
    · rfl

theorem genLoop_notified (a : Activity) (alg : String) (rand : Nat → Nat) (endD : Date)
    (gas : Nat) : ∀ (cur : Date) (st : GenSt) (e : ScheduleEntry),
    e ∈ (genLoop a alg rand endD gas cur st).1 → e.notified = false := by
  induction gas with
  | zero => intro cur st e h; simp [genLoop] at h
  | succ gas ih =>
    intro cur st e h
    simp only [genLoop] at h
    split_ifs at h with hif
    · rcases List.mem_cons.mp h with h | h
      · subst h; rfl
      · exact ih _ _ _ h
    · simp at h

theorem genAct_length (a : Activity) (actives : List Member) (startD endD : Date)
    (alg : String) (rand : Nat → Nat) (rk : Nat) :
    (generateActivitySchedules a actives startD endD alg rand rk).1.length
      = occCount a startD endD := by
  have h := genLoop_map_date a alg rand endD (endD.key + 1 - startD.key) startD
    { actives := actives, order := sortIdxByCount actives (List.range actives.length),
      memberIndex := 0, randK := rk }
  have := congrArg List.length h
  simpa [generateActivitySchedules, occCount] using this

theorem runActivities_length (startD endD : Date) (alg : String) (rand : Nat → Nat) :
    ∀ (as : List Activity) (actives : List Member) (rk : Nat),
    (runActivities startD endD alg rand as actives rk).1.length
      = (as.map (fun a => occCount a startD endD)).sum := by
  intro as
  induction as with
  | nil => intro actives rk; rfl
  | cons a as ih =>
    intro actives rk
    simp only [runActivities, List.map_cons, List.sum_cons, List.length_append,
      genAct_length, ih]

theorem runActivities_mem (startD endD : Date) (alg : String) (rand : Nat → Nat)
    (hc : startD.Canonical) :
    ∀ (as : List Activity) (actives : List Member) (rk : Nat) (e : ScheduleEntry),
    e ∈ (runActivities startD endD alg rand as actives rk).1 →
    (startD.key ≤ e.date.key ∧ e.date.key ≤ endD.key) ∧ e.notified = false := by
  intro as
  induction as with
  | nil => intro actives rk e h; simp [runActivities] at h
  | cons a as ih =>
    intro actives rk e h
    simp only [runActivities] at h
    rcases List.mem_append.mp h with h | h
    · refine ⟨?_, genLoop_notified a alg rand endD _ _ _ _ (by
        simpa [generateActivitySchedules] using h)⟩
      have hd : e.date ∈ occDates (endD.key + 1 - startD.key)
          a.frequency a.frequencyUnit endD startD := by
        have hmap := genLoop_map_date a alg rand endD (endD.key + 1 - startD.key) startD
          { actives := actives, order := sortIdxByCount actives (List.range actives.length),
            memberIndex := 0, randK := rk }
        rw [← hmap]
        exact List.mem_map_of_mem _ (by simpa [generateActivitySchedules] using h)
      exact occDates_mem_bounds hc hd
    · exact ih _ _ _ h

theorem mem_assignIds : ∀ {base : Nat} {es : List ScheduleEntry} {e : ScheduleEntry},
    e ∈ assignIds base es →
    ∃ e0, e0 ∈ es ∧ e.date = e0.date ∧ e.notified = e0.notified ∧ e.memberId = e0.memberId := by
  intro base es
  induction es generalizing base with
  | nil => intro e h; simp [assignIds] at h
  | cons e0 es ih =>
    intro e h
    simp only [assignIds] at h
    rcases List.mem_cons.mp h with h | h
    · exact ⟨e0, List.mem_cons_self _ _, by subst h; exact rfl, by subst h; exact rfl,
        by subst h; exact rfl⟩
    · obtain ⟨e1, he1, hrest⟩ := ih h
      exact ⟨e1, List.mem_cons_of_mem _ he1, hrest⟩

theorem assignIds_length : ∀ (base : Nat) (es : List ScheduleEntry),
    (assignIds base es).length = es.length := by
  intro base es
  induction es generalizing base with
  | nil => rfl
  | cons e es ih => simp [assignIds, ih]

theorem assignIds_map_memberId : ∀ (base : Nat) (es : List ScheduleEntry),
    (assignIds base es).map (fun e => e.memberId) = es.map (fun e => e.memberId) := by
  intro base es
  induction es generalizing base with
  | nil => rfl
  | cons e es ih => simp [assignIds, ih]

/-- C1: with zero active members `generate` fails with `NoActiveMembers`,
and with at least one active member but zero activities it fails with
`NoActivities`, for every date range; in both cases the returned store is
the unchanged input store (schedules, members and settings included), since
the precondition checks run before `clearSchedules()`. -/
theorem generate_precondition_failures (s : Store) (d1 d2 : Date)
    (rand : Nat → Nat) (idBase : Nat) :
    (getActiveMembers s = [] →
      generate s d1 d2 rand idBase = (Except.error GenError.NoActiveMembers, s)) ∧
    (getActiveMembers s ≠ [] → s.activities = [] →
      generate s d1 d2 rand idBase = (Except.error GenError.NoActivities, s)) := by
  constructor
  · intro h
    simp [generate, h]
  · intro hm ha
    have h0 : ¬(getActiveMembers s).length = 0 := by
      simpa [List.length_eq_zero] using hm
    simp [generate, h0, ha]

theorem generate_precondition_failures_witness :
    (getActiveMembers ⟨[⟨"1", "A", "", "inactive", 0⟩], [], [], ⟨"rotation", true, 3⟩⟩ = [] ∧
      generate ⟨[⟨"1", "A", "", "inactive", 0⟩], [], [], ⟨"rotation", true, 3⟩⟩
        ⟨2024, 1, 1⟩ ⟨2024, 1, 2⟩ (fun _ => 0) 0
        = (Except.error GenError.NoActiveMembers,
           ⟨[⟨"1", "A", "", "inactive", 0⟩], [], [], ⟨"rotation", true, 3⟩⟩)) ∧
    (getActiveMembers ⟨[⟨"1", "A", "", "active", 0⟩], [], [], ⟨"rotation", true, 3⟩⟩ ≠ [] ∧
      generate ⟨[⟨"1", "A", "", "active", 0⟩], [], [], ⟨"rotation", true, 3⟩⟩
        ⟨2024, 1, 1⟩ ⟨2024, 1, 2⟩ (fun _ => 0) 0
        = (Except.error GenError.NoActivities,
           ⟨[⟨"1", "A", "", "active", 0⟩], [], [], ⟨"rotation", true, 3⟩⟩)) :=
  ⟨⟨by decide,
    (generate_precondition_failures _ _ _ _ _).1 (by decide)⟩,
   ⟨by decide,
    (generate_precondition_failures _ _ _ _ _).2 (by decide) (by decide)⟩⟩

/-- C2: for a store with at least one active member and at least one
(well-formed) activity, and a canonical window `startDate ≤ endDate`,
`generate` returns exactly the batch it persists as the schedules
collection; the batch has one entry per stepping date, summed over the
activities in iteration order, and every entry's date lies within the
window with `notified = false`. -/
theorem generate_counts_and_range (s : Store) (d1 d2 : Date) (rand : Nat → Nat) (idBase : Nat)
    (hm : getActiveMembers s ≠ []) (ha : s.activities ≠ [])
    (hwf : ∀ a ∈ s.activities, 1 ≤ a.frequency ∧
      (a.frequencyUnit = "days" ∨ a.frequencyUnit = "weeks" ∨ a.frequencyUnit = "months"))
    (hc : d1.Canonical) (hle : d1.key ≤ d2.key) :
    (generate s d1 d2 rand idBase).1
      = Except.ok (generate s d1 d2 rand idBase).2.schedules ∧
    (generate s d1 d2 rand idBase).2.schedules.length
      = (s.activities.map (fun a => occCount a d1 d2)).sum ∧
    ∀ e ∈ (generate s d1 d2 rand idBase).2.schedules,
      d1.key ≤ e.date.key ∧ e.date.key ≤ d2.key ∧ e.notified = false := by
  have h0 : ¬(getActiveMembers s).length = 0 := by
    simpa [List.length_eq_zero] using hm
  have h1 : ¬s.activities.length = 0 := by
    simpa [List.length_eq_zero] using ha
  simp only [generate, if_neg h0, if_neg h1]
  refine ⟨by trivial, ?_, ?_⟩
  · simp only [assignIds_length, runActivities_length]
  · intro e he
    obtain ⟨e0, he0, hdate, hnot, _⟩ := mem_assignIds he
    have := runActivities_mem d1 d2 s.settings.algorithm rand hc s.activities _ 0 e0 he0
    rw [hdate, hnot]
    exact ⟨this.1.1, this.1.2, this.2⟩

/-! ### Rotation policy lemmas -/

theorem countAt_reset (l : List Member) :
    ∀ i, countAt (l.map (fun m => { m with participationCount := 0 })) i = 0 := by
  induction l with
  | nil => intro i; cases i <;> rfl
  | cons m ms ih =>
    intro i
    cases i with
    | zero => rfl
    | succ i => simpa [countAt, List.getD_cons_succ] using ih i

theorem insertIdx_const {actives : List Member}
    (h : ∀ i j, countAt actives i ≤ countAt actives j) (i : Nat) :
    ∀ l, insertIdx actives i l = i :: l := by
  intro l
  cases l with
  | nil => rfl
  | cons j js => simp [insertIdx, h i j]

theorem sortIdx_const {actives : List Member}
    (h : ∀ i j, countAt actives i ≤ countAt actives j) :
    ∀ l, sortIdxByCount actives l = l := by
  intro l
  induction l with
  | nil => rfl
  | cons x xs ih =>
    simp only [sortIdxByCount, List.foldr_cons] at *
    rw [ih, insertIdx_const h]

theorem incCountAt_map_id : ∀ (i : Nat) (l : List Member),
    (incCountAt i l).map (fun m => m.id) = l.map (fun m => m.id) := by
  intro i l
  induction l generalizing i with
  | nil => cases i <;> rfl
  | cons m ms ih =>
    cases i with
    | zero => rfl
    | succ i => simp [incCountAt, ih]

theorem map_id_getD (l : List Member) :
    ∀ i, (l.map (fun m => m.id)).getD i "" = (l.getD i mDefault).id := by
  induction l with
  | nil => intro i; cases i <;> rfl
  | cons m ms ih =>
    intro i
    cases i with
    | zero => rfl
    | succ i => simpa [List.getD_cons_succ] using ih i

theorem range_getD {n j : Nat} (h : j < n) : (List.range n).getD j 0 = j := by
  rw [List.getD_eq_getElem?_getD, List.getElem?_range h]
  rfl

theorem reset_map_id (l : List Member) :
    (l.map (fun m => { m with participationCount := 0 })).map (fun m => m.id)
      = l.map (fun m => m.id) := by
  induction l with
  | nil => rfl
  | cons m ms ih => simp only [List.map_cons, ih]

theorem pickMember_rotation (rand : Nat → Nat) (st : GenSt) :
    pickMember "rotation" rand st
      = (st.order.getD (st.memberIndex % st.order.length) 0,
         { st with memberIndex := st.memberIndex + 1 }) := by
  simp [pickMember]

theorem genLoop_rotation_ids (a : Activity) (rand : Nat → Nat) (endD : Date) (gas : Nat) :
    ∀ (cur : Date) (st : GenSt),
    (genLoop a "rotation" rand endD gas cur st).1.map (fun e => e.memberId)
      = (List.range (occDates gas a.frequency a.frequencyUnit endD cur).length).map
          (fun t => (st.actives.map (fun m => m.id)).getD
            (st.order.getD ((st.memberIndex + t) % st.order.length) 0) "") := by
  induction gas with
  | zero => intro cur st; rfl
  | succ gas ih =>
    intro cur st
    simp only [genLoop, occDates]
    split_ifs with h
    · rw [pickMember_rotation]
      simp only [List.map_cons, List.length_cons, List.range_succ_eq_map, List.map_map]
      refine List.cons_eq_cons.mpr ⟨?_, ?_⟩
      · rw [map_id_getD]
        simp only [emitEntry, Nat.add_zero]
      · rw [ih]
        simp only [incCountAt_map_id]
        refine List.map_congr_left ?_
        intro t ht
        have harg : st.memberIndex + 1 + t = st.memberIndex + (t + 1) := by omega
        simp [Function.comp, harg]
    · rfl

theorem count_mod_range {N j : Nat} (hj : j < N) :
    ∀ k, (List.range (N * k)).countP (fun t => t % N == j) = k := by
  intro k
  induction k with
  | zero => simp
  | succ k ih =>
    have hNk : N * (k + 1) = N * k + N := by ring
    rw [hNk, List.range_add, List.countP_append, ih]
    have hone : ((List.range N).map (fun t => N * k + t)).countP (fun t => t % N == j) = 1 := by
      rw [List.countP_map]
      have hcg : ((List.range N).countP ((fun t => t % N == j) ∘ (fun t => N * k + t)))
          = (List.range N).countP (fun x => x == j) := by
        refine List.countP_congr ?_
        intro x hx
        have hxN : x < N := List.mem_range.mp hx
        have hmod : (N * k + x) % N = x := by
          rw [Nat.mul_add_mod]
          exact Nat.mod_eq_of_lt hxN
        simp [Function.comp, hmod]
      rw [hcg, ← List.count_eq_countP]
      exact List.count_eq_one_of_mem (List.nodup_range N) (List.mem_range.mpr hj)
    omega

theorem nodup_getD_inj {l : List String} (h : l.Nodup) {i j : Nat}
    (hi : i < l.length) (hj : j < l.length)
    (he : l.getD i "" = l.getD j "") : i = j := by
  rw [List.getD_eq_getElem?_getD, List.getD_eq_getElem?_getD,
    List.getElem?_eq_getElem hi, List.getElem?_eq_getElem hj] at he
  simp only [Option.getD_some] at he
  exact List.Nodup.getElem_inj_iff h |>.mp he

/-- C3: single activity, rotation policy: the generated batch assigns
occurrence `t` to active member `t mod N` of the count-sorted snapshot —
which, counts being freshly reset (and equal beforehand), is the original
active-member order — and when the window yields exactly `N * k`
occurrences every active member receives exactly `k` of them. -/
theorem generate_rotation_round_robin (s : Store) (d1 d2 : Date) (rand : Nat → Nat)
    (idBase : Nat) (a : Activity) (k c : Nat)
    (ha : s.activities = [a]) (halg : s.settings.algorithm = "rotation")
    (hm : getActiveMembers s ≠ [])
    (hEq : ∀ m ∈ getActiveMembers s, m.participationCount = c)
    (hnd : ((getActiveMembers s).map (fun m => m.id)).Nodup)
    (hnk : occCount a d1 d2 = (getActiveMembers s).length * k) :
    (generate s d1 d2 rand idBase).2.schedules.map (fun e => e.memberId)
      = (List.range ((getActiveMembers s).length * k)).map
          (fun t => ((getActiveMembers s).map (fun m => m.id)).getD
            (t % (getActiveMembers s).length) "") ∧
    ∀ m ∈ getActiveMembers s,
      ((generate s d1 d2 rand idBase).2.schedules.filter
        (fun e => e.memberId == m.id)).length = k := by
  have h0 : ¬(getActiveMembers s).length = 0 := by
    simpa [List.length_eq_zero] using hm
  have hN : 0 < (getActiveMembers s).length := Nat.pos_of_ne_zero h0
  have h1 : ¬s.activities.length = 0 := by rw [ha]; simp
  have hmain : (generate s d1 d2 rand idBase).2.schedules.map (fun e => e.memberId)
      = (List.range ((getActiveMembers s).length * k)).map
          (fun t => ((getActiveMembers s).map (fun m => m.id)).getD
            (t % (getActiveMembers s).length) "") := by
    have h1a : ¬([a] : List Activity).length = 0 := by simp
    simp only [generate, if_neg h0, ha, halg, if_neg h1a, runActivities,
      generateActivitySchedules, List.append_nil]
    rw [assignIds_map_memberId]
    have hconst : ∀ i j,
        countAt ((getActiveMembers s).map (fun m => { m with participationCount := 0 })) i
          ≤ countAt ((getActiveMembers s).map (fun m => { m with participationCount := 0 })) j := by
      intro i j
      rw [countAt_reset, countAt_reset]
    rw [sortIdx_const hconst, genLoop_rotation_ids]
    rw [← occCount, hnk]
    refine List.map_congr_left ?_
    intro t ht
    have htN : t % (getActiveMembers s).length < (getActiveMembers s).length :=
      Nat.mod_lt _ hN
    rw [List.length_range, List.length_map, Nat.zero_add, range_getD htN, reset_map_id]
  refine ⟨hmain, ?_⟩
  intro m hmem
  obtain ⟨⟨j, hj⟩, hget⟩ := List.mem_iff_get.mp hmem
  have hj2 : j < ((getActiveMembers s).map (fun m => m.id)).length := by
    simpa [List.length_map] using hj
  have hmid : m.id = ((getActiveMembers s).map (fun m => m.id)).getD j "" := by
    rw [List.getD_eq_getElem?_getD, List.getElem?_eq_getElem hj2]
    simp only [Option.getD_some, List.getElem_map]
    rw [← hget]
    simp [List.get_eq_getElem]
  rw [← List.countP_eq_length_filter]
  have hswap : (generate s d1 d2 rand idBase).2.schedules.countP
        (fun e => e.memberId == m.id)
      = ((generate s d1 d2 rand idBase).2.schedules.map
          (fun e => e.memberId)).countP (fun x => x == m.id) := by
    rw [List.countP_map]
    rfl
  rw [hswap, hmain, List.countP_map]
  have hcg : ((List.range ((getActiveMembers s).length * k)).countP
        ((fun x => x == m.id) ∘ (fun t => ((getActiveMembers s).map (fun m => m.id)).getD
          (t % (getActiveMembers s).length) "")))
      = (List.range ((getActiveMembers s).length * k)).countP
          (fun t => t % (getActiveMembers s).length == j) := by
    refine List.countP_congr ?_
    intro t ht
    have htN : t % (getActiveMembers s).length < (getActiveMembers s).length :=
      Nat.mod_lt _ hN
    have htN2 : t % (getActiveMembers s).length
        < ((getActiveMembers s).map (fun m => m.id)).length := by
      simpa [List.length_map] using htN
    simp only [Function.comp, beq_iff_eq]
    constructor
    · intro hx
      exact nodup_getD_inj hnd htN2 hj2 (by rw [hx, hmid])
    · intro hx
      rw [hx, ← hmid]
  rw [hcg]
  exact count_mod_range (by simpa [List.length_map] using hj2) k

/-! ### Balanced policy lemmas -/

theorem mem_insertIdx {actives : List Member} {i x : Nat} :
    ∀ {l : List Nat}, x ∈ insertIdx actives i l ↔ x = i ∨ x ∈ l := by
  intro l
  induction l with
  | nil => simp [insertIdx]
  | cons j js ih =>
    simp only [insertIdx]
    split_ifs with h
    · simp [List.mem_cons]
    · simp only [List.mem_cons, ih]
      tauto

theorem mem_sortIdx {actives : List Member} {x : Nat} :
    ∀ {l : List Nat}, x ∈ sortIdxByCount actives l ↔ x ∈ l := by
  intro l
  induction l with
  | nil => simp [sortIdxByCount]
  | cons y ys ih =>
    simp only [sortIdxByCount, List.foldr_cons] at *
    rw [mem_insertIdx, ih, List.mem_cons]

theorem pairwise_insertIdx {actives : List Member} {i : Nat} :
    ∀ {l : List Nat},
    l.Pairwise (fun x y => countAt actives x ≤ countAt actives y) →
    (insertIdx actives i l).Pairwise (fun x y => countAt actives x ≤ countAt actives y) := by
  intro l
  induction l with
  | nil => intro _; simp [insertIdx]
  | cons j js ih =>
    intro hp
    rw [List.pairwise_cons] at hp
    obtain ⟨hj, hjs⟩ := hp
    simp only [insertIdx]
    split_ifs with h
    · refine List.Pairwise.cons ?_ (List.Pairwise.cons hj hjs)
      intro y hy
      rcases List.mem_cons.mp hy with rfl | hy2
      · exact h
      · exact le_trans h (hj y hy2)
    · refine List.Pairwise.cons ?_ (ih hjs)
      intro y hy
      rcases mem_insertIdx.mp hy with rfl | hy2
      · omega
      · exact hj y hy2

theorem pairwise_sortIdx (actives : List Member) (l : List Nat) :
    (sortIdxByCount actives l).Pairwise
      (fun x y => countAt actives x ≤ countAt actives y) := by
  induction l with
  | nil => simp [sortIdxByCount]
  | cons x xs ih =>
    simp only [sortIdxByCount, List.foldr_cons] at *
    exact pairwise_insertIdx ih

theorem sortIdx_head_min {actives : List Member} {l : List Nat} {y : Nat}
    (hy : y ∈ sortIdxByCount actives l) :
    countAt actives ((sortIdxByCount actives l).getD 0 0) ≤ countAt actives y := by
  cases hs : sortIdxByCount actives l with
  | nil => rw [hs] at hy; simp at hy
  | cons h t =>
    rw [hs] at hy
    have hp := pairwise_sortIdx actives l
    rw [hs, List.pairwise_cons] at hp
    rcases List.mem_cons.mp hy with rfl | hy2
    · simp
    · simpa using hp.1 y hy2

theorem member_getD_lt {l : List Member} {i : Nat} (h : i < l.length) :
    l.getD i mDefault = l[i] := by
  rw [List.getD_eq_getElem?_getD, List.getElem?_eq_getElem h]
  rfl

theorem pickMember_balanced (rand : Nat → Nat) (st : GenSt) :
    pickMember "balanced" rand st
      = ((sortIdxByCount st.actives st.order).getD 0 0,
         { st with order := sortIdxByCount st.actives st.order }) := by
  simp [pickMember]

theorem pickMember_actives (alg : String) (rand : Nat → Nat) (st : GenSt) :
    (pickMember alg rand st).2.actives = st.actives := by
  unfold pickMember
  split_ifs <;> rfl

theorem incCountAt_length : ∀ (i : Nat) (l : List Member),
    (incCountAt i l).length = l.length := by
  intro i l
  induction l generalizing i with
  | nil => cases i <;> rfl
  | cons m ms ih =>
    cases i with
    | zero => rfl
    | succ i => simp [incCountAt, ih]

theorem balanced_pick_min {st : GenSt}
    (hcov : ∀ j, j ∈ st.order ↔ j < st.actives.length)
    (hne : 0 < st.actives.length) :
    (sortIdxByCount st.actives st.order).getD 0 0 < st.actives.length ∧
    ∀ m ∈ st.actives,
      (st.actives.getD ((sortIdxByCount st.actives st.order).getD 0 0)
        mDefault).participationCount ≤ m.participationCount := by
  have h0 : (0 : Nat) ∈ st.order := (hcov 0).mpr hne
  have h0s : (0 : Nat) ∈ sortIdxByCount st.actives st.order := mem_sortIdx.mpr h0
  have hhead : (sortIdxByCount st.actives st.order).getD 0 0
      ∈ sortIdxByCount st.actives st.order := by
    cases hs : sortIdxByCount st.actives st.order with
    | nil => rw [hs] at h0s; simp at h0s
    | cons h t => simp
  have hlt : (sortIdxByCount st.actives st.order).getD 0 0 < st.actives.length :=
    (hcov _).mp (mem_sortIdx.mp hhead)
  refine ⟨hlt, ?_⟩
  intro m hm
  obtain ⟨⟨j, hj⟩, hget⟩ := List.mem_iff_get.mp hm
  have hjs : j ∈ sortIdxByCount st.actives st.order := mem_sortIdx.mpr ((hcov j).mpr hj)
  have hmin := sortIdx_head_min hjs
  have hj2 : st.actives.getD j mDefault = m := by
    rw [member_getD_lt hj]
    exact hget
  simp only [countAt] at hmin
  rw [hj2] at hmin
  exact hmin

theorem genLoopT_actives_length (a : Activity) (alg : String) (rand : Nat → Nat)
    (endD : Date) (gas : Nat) : ∀ (cur : Date) (st : GenSt),
    (genLoopT a alg rand endD gas cur st).2.actives.length = st.actives.length := by
  induction gas with
  | zero => intro cur st; rfl
  | succ gas ih =>
    intro cur st
    simp only [genLoopT]
    split_ifs with h
    · rw [ih]
      simp [incCountAt_length, pickMember_actives]
    · rfl

theorem genLoopT_balanced_min (a : Activity) (rand : Nat → Nat) (endD : Date)
    (gas : Nat) : ∀ (cur : Date) (st : GenSt),
    (∀ j, j ∈ st.order ↔ j < st.actives.length) →
    0 < st.actives.length →
    ∀ p ∈ (genLoopT a "balanced" rand endD gas cur st).1,
      p.2 < p.1.length ∧
      ∀ m ∈ p.1, (p.1.getD p.2 mDefault).participationCount ≤ m.participationCount := by
  induction gas with
  | zero => intro cur st _ _ p hp; simp [genLoopT] at hp
  | succ gas ih =>
    intro cur st hcov hne p hp
    simp only [genLoopT] at hp
    rw [pickMember_balanced] at hp
    split_ifs at hp with h
    · rcases List.mem_cons.mp hp with rfl | hp2
      · exact balanced_pick_min hcov hne
      · refine ih _ _ (fun j => ?_) ?_ _ hp2
        · show j ∈ sortIdxByCount st.actives st.order
            ↔ j < (incCountAt ((sortIdxByCount st.actives st.order).getD 0 0)
                st.actives).length
          rw [mem_sortIdx, incCountAt_length]
          exact hcov j
        · show 0 < (incCountAt ((sortIdxByCount st.actives st.order).getD 0 0)
              st.actives).length
          rw [incCountAt_length]
          exact hne
    · simp at hp

theorem runActivitiesT_balanced_min (startD endD : Date) (rand : Nat → Nat) :
    ∀ (as : List Activity) (actives : List Member) (rk : Nat),
    0 < actives.length →
    ∀ p ∈ (runActivitiesT startD endD "balanced" rand as actives rk).1,
      p.2 < p.1.length ∧
      ∀ m ∈ p.1, (p.1.getD p.2 mDefault).participationCount ≤ m.participationCount := by
  intro as
  induction as with
  | nil => intro actives rk _ p hp; simp [runActivitiesT] at hp
  | cons a as ih =>
    intro actives rk hne p hp
    simp only [runActivitiesT] at hp
    rcases List.mem_append.mp hp with hp1 | hp2
    · refine genLoopT_balanced_min a rand endD _ startD _ (fun j => ?_) hne p hp1
      show j ∈ sortIdxByCount actives (List.range actives.length) ↔ j < actives.length
      rw [mem_sortIdx, List.mem_range]
    · refine ih _ _ ?_ p hp2
      rw [genLoopT_actives_length]
      exact hne

theorem genLoopT_proj (a : Activity) (alg : String) (rand : Nat → Nat) (endD : Date)
    (gas : Nat) : ∀ (cur : Date) (st : GenSt),
    (genLoopT a alg rand endD gas cur st).2 = (genLoop a alg rand endD gas cur st).2 ∧
    (genLoopT a alg rand endD gas cur st).1.map (fun p => (p.1.getD p.2 mDefault).id)
      = (genLoop a alg rand endD gas cur st).1.map (fun e => e.memberId) := by
  induction gas with
  | zero => intro cur st; exact ⟨rfl, rfl⟩
  | succ gas ih =>
    intro cur st
    simp only [genLoopT, genLoop]
    split_ifs with h
    · refine ⟨(ih _ _).1, ?_⟩
      simp only [List.map_cons]
      rw [(ih _ _).2]
      congr 1
    · exact ⟨rfl, rfl⟩

theorem runActivitiesT_proj (startD endD : Date) (alg : String) (rand : Nat → Nat) :
    ∀ (as : List Activity) (actives : List Member) (rk : Nat),
    (runActivitiesT startD endD alg rand as actives rk).2.actives
      = (runActivities startD endD alg rand as actives rk).2.1 ∧
    (runActivitiesT startD endD alg rand as actives rk).2.randK
      = (runActivities startD endD alg rand as actives rk).2.2 ∧
    (runActivitiesT startD endD alg rand as actives rk).1.map
        (fun p => (p.1.getD p.2 mDefault).id)
      = (runActivities startD endD alg rand as actives rk).1.map (fun e => e.memberId) := by
  intro as
  induction as with
  | nil => intro actives rk; exact ⟨rfl, rfl, rfl⟩
  | cons a as ih =>
    intro actives rk
    simp only [runActivitiesT, runActivities, generateActivitySchedules]
    have hg := genLoopT_proj a alg rand endD (endD.key + 1 - startD.key) startD
      { actives := actives, order := sortIdxByCount actives (List.range actives.length),
        memberIndex := 0, randK := rk }
    rw [hg.1]
    refine ⟨(ih _ _).1, (ih _ _).2.1, ?_⟩
    rw [List.map_append, List.map_append, hg.2, (ih _ _).2.2]

/-- C4: under the balanced policy, at every occurrence emitted during a
generation run — across all activities, in emission order — the assigned
member's `participationCount` at the instant of the assignment is at most
that of every other active member; and the run's entries are exactly the
trace's assignments (so the trace is the generation run). -/
theorem generate_balanced_min (s : Store) (d1 d2 : Date) (rand : Nat → Nat)
    (idBase : Nat) (halg : s.settings.algorithm = "balanced") :
    (∀ es st', generate s d1 d2 rand idBase = (Except.ok es, st') →
      es.map (fun e => e.memberId)
        = (genTrace s d1 d2 rand).map (fun p => (p.1.getD p.2 mDefault).id)) ∧
    ∀ p ∈ genTrace s d1 d2 rand,
      p.2 < p.1.length ∧
      ∀ m ∈ p.1, (p.1.getD p.2 mDefault).participationCount ≤ m.participationCount := by
  constructor
  · intro es st' hok
    by_cases h0 : (getActiveMembers s).length = 0
    · rw [generate, if_pos h0] at hok
      exact absurd (congrArg Prod.fst hok) (by simp)
    · by_cases h1 : s.activities.length = 0
      · rw [generate] at hok
        rw [if_neg h0, if_pos h1] at hok
        exact absurd (congrArg Prod.fst hok) (by simp)
      · simp only [generate, if_neg h0, if_neg h1] at hok
        have hes : es = assignIds idBase
            (runActivities d1 d2 s.settings.algorithm rand s.activities
              ((getActiveMembers s).map (fun m => { m with participationCount := 0 })) 0).1 := by
          have := congrArg Prod.fst hok
          simpa using this.symm
        rw [hes, assignIds_map_memberId]
        simp only [genTrace, if_neg h0, if_neg h1]
        exact ((runActivitiesT_proj d1 d2 s.settings.algorithm rand s.activities _ 0).2.2).symm
  · intro p hp
    by_cases h0 : (getActiveMembers s).length = 0
    · rw [genTrace, if_pos h0] at hp
      simp at hp
    · by_cases h1 : s.activities.length = 0
      · rw [genTrace] at hp
        rw [if_neg h0, if_pos h1] at hp
        simp at hp
      · simp only [genTrace, if_neg h0, if_neg h1, halg] at hp
        refine runActivitiesT_balanced_min d1 d2 rand s.activities
          ((getActiveMembers s).map (fun m => { m with participationCount := 0 })) 0 ?_ p ?_
        · rw [List.length_map]
          omega
        · exact hp

theorem generate_counts_and_range_witness :
    getActiveMembers ⟨[⟨"1", "A", "", "active", 0⟩], [⟨"9", "Duty", "", 1, "weeks"⟩], [],
        ⟨"rotation", true, 3⟩⟩ ≠ [] ∧
    (⟨[⟨"1", "A", "", "active", 0⟩], [⟨"9", "Duty", "", 1, "weeks"⟩], [],
        ⟨"rotation", true, 3⟩⟩ : Store).activities ≠ [] ∧
    (generate ⟨[⟨"1", "A", "", "active", 0⟩], [⟨"9", "Duty", "", 1, "weeks"⟩], [],
        ⟨"rotation", true, 3⟩⟩ ⟨2024, 1, 1⟩ ⟨2024, 1, 15⟩ (fun _ => 0) 0).2.schedules.length
      = ((⟨[⟨"1", "A", "", "active", 0⟩], [⟨"9", "Duty", "", 1, "weeks"⟩], [],
        ⟨"rotation", true, 3⟩⟩ : Store).activities.map
          (fun a => occCount a ⟨2024, 1, 1⟩ ⟨2024, 1, 15⟩)).sum := by
  refine ⟨by decide, by decide, ?_⟩
  exact (generate_counts_and_range _ ⟨2024, 1, 1⟩ ⟨2024, 1, 15⟩ (fun _ => 0) 0
    (by decide) (by decide) (by decide) (by decide) (by decide)).2.1

theorem generate_rotation_round_robin_witness :
    ((generate ⟨[⟨"1", "Alice", "", "active", 5⟩, ⟨"2", "Bob", "", "active", 5⟩],
        [⟨"9", "Duty", "", 1, "weeks"⟩], [], ⟨"rotation", true, 3⟩⟩
        ⟨2024, 1, 1⟩ ⟨2024, 1, 28⟩ (fun _ => 0) 0).2.schedules.filter
      (fun e => e.memberId == (⟨"1", "Alice", "", "active", 5⟩ : Member).id)).length = 2 :=
  (generate_rotation_round_robin _ ⟨2024, 1, 1⟩ ⟨2024, 1, 28⟩ (fun _ => 0) 0
    ⟨"9", "Duty", "", 1, "weeks"⟩ 2 5 (by decide) (by decide) (by decide) (by decide)
    (by decide) (by decide)).2 ⟨"1", "Alice", "", "active", 5⟩ (by decide)

theorem generate_balanced_min_witness :
    (([(⟨"1", "Alice", "", "active", 0⟩ : Member), ⟨"2", "Bob", "", "active", 0⟩], (0 : Nat))
        ∈ genTrace ⟨[⟨"1", "Alice", "", "active", 0⟩, ⟨"2", "Bob", "", "active", 0⟩],
            [⟨"9", "Duty", "", 1, "weeks"⟩], [], ⟨"balanced", true, 3⟩⟩
            ⟨2024, 1, 1⟩ ⟨2024, 1, 28⟩ (fun _ => 0)) ∧
    (([(⟨"1", "Alice", "", "active", 0⟩ : Member),
        ⟨"2", "Bob", "", "active", 0⟩].getD 0 mDefault).participationCount
      ≤ (⟨"2", "Bob", "", "active", 0⟩ : Member).participationCount) :=
  ⟨by decide,
   ((generate_balanced_min
       ⟨[⟨"1", "Alice", "", "active", 0⟩, ⟨"2", "Bob", "", "active", 0⟩],
        [⟨"9", "Duty", "", 1, "weeks"⟩], [], ⟨"balanced", true, 3⟩⟩
       ⟨2024, 1, 1⟩ ⟨2024, 1, 28⟩ (fun _ => 0) 0 (by decide)).2
     ([⟨"1", "Alice", "", "active", 0⟩, ⟨"2", "Bob", "", "active", 0⟩], 0)
     (by decide)).2 ⟨"2", "Bob", "", "active", 0⟩ (by decide)⟩

/-- C5: month stepping uses standard calendar rollover, not clamping: a
`frequency = 1, frequencyUnit = 'months'` activity over the window
2024-01-31 .. 2024-04-30 yields exactly the dates 2024-01-31, 2024-03-02
(Jan 31 + 1 month = Feb 31, which rolls over in the leap year), and
2024-04-02; `days` advances by `n` days and `weeks` by `n * 7` days. -/
theorem month_step_rollover :
    ((generateActivitySchedules ⟨"9", "Monthly", "", 1, "months"⟩
        [⟨"1", "Alice", "", "active", 0⟩] ⟨2024, 1, 31⟩ ⟨2024, 4, 30⟩
        "rotation" (fun _ => 0) 0).1.map (fun e => e.date)
      = [⟨2024, 1, 31⟩, ⟨2024, 3, 2⟩, ⟨2024, 4, 2⟩]) ∧
    (∀ (n : Nat) (d : Date), stepDate n "days" d = addDays n d) ∧
    (∀ (n : Nat) (d : Date), stepDate n "weeks" d = addDays (n * 7) d) := by
  refine ⟨by decide, fun n d => by simp [stepDate], fun n d => by simp [stepDate]⟩

/-- C6: the export-import round trip restores all four collections exactly
(the `exportDate` stamp is never read on import), and an arbitrary import
payload replaces exactly the collections whose keys are present, leaving
absent ones untouched. -/
theorem importExport_round_trip (s : Store) (p : ImportPayload) (now ed : String) :
    importData s (exportData s now) = s ∧
    (importData s p).members = p.members.getD s.members ∧
    (importData s p).activities = p.activities.getD s.activities ∧
    (importData s p).schedules = p.schedules.getD s.schedules ∧
    (importData s p).settings = p.settings.getD s.settings ∧
    importData s { p with exportDate := some ed } = importData s p := by
  obtain ⟨pm, pa, ps, pset, ped⟩ := p
  refine ⟨rfl, ?_, ?_, ?_, ?_, rfl⟩ <;>
    cases pm <;> cases pa <;> cases ps <;> cases pset <;> rfl

/-- C7: `updateMember` / `updateActivity` on an id that is not present
return null and leave the store unchanged (no exception is possible); on a
present id they shallow-merge the patch into that record — absent patch
fields keep their previous values, every other record is untouched — and
return the updated record. -/
theorem update_notFound_and_merge (s : Store) (id : String) (pm : MemberPatch)
    (pa : ActivityPatch) :
    (s.members.findIdx? (fun m => m.id == id) = none →
      updateMember s id pm = (s, none)) ∧
    (s.activities.findIdx? (fun a => a.id == id) = none →
      updateActivity s id pa = (s, none)) ∧
    (∀ i, s.members.findIdx? (fun m => m.id == id) = some i →
      updateMember s id pm
        = ({ s with members :=
              s.members.set i (applyMemberPatch (s.members.getD i mDefault) pm) },
           some (applyMemberPatch (s.members.getD i mDefault) pm))) ∧
    (∀ i, s.activities.findIdx? (fun a => a.id == id) = some i →
      updateActivity s id pa
        = ({ s with activities :=
              s.activities.set i (applyActivityPatch (s.activities.getD i aDefault) pa) },
           some (applyActivityPatch (s.activities.getD i aDefault) pa))) ∧
    (∀ m : Member, pm.name = none → (applyMemberPatch m pm).name = m.name) ∧
    (∀ m : Member, pm.email = none → (applyMemberPatch m pm).email = m.email) ∧
    (∀ m : Member, pm.status = none → (applyMemberPatch m pm).status = m.status) ∧
    (∀ m : Member, pm.participationCount = none →
      (applyMemberPatch m pm).participationCount = m.participationCount) ∧
    (∀ (i j : Nat) (m' : Member), j ≠ i →
      (s.members.set i m').getD j mDefault = s.members.getD j mDefault) := by
  refine ⟨?_, ?_, ?_, ?_, ?_, ?_, ?_, ?_, ?_⟩
  · intro h; simp [updateMember, h]
  · intro h; simp [updateActivity, h]
  · intro i h; simp [updateMember, h]
  · intro i h; simp [updateActivity, h]
  · intro m h; simp [applyMemberPatch, h]
  · intro m h; simp [applyMemberPatch, h]
  · intro m h; simp [applyMemberPatch, h]
  · intro m h; simp [applyMemberPatch, h]
  · intro i j m' hne
    rw [List.getD_eq_getElem?_getD, List.getD_eq_getElem?_getD,
      List.getElem?_set_ne (by omega)]

theorem update_notFound_and_merge_witness :
    updateMember ⟨[⟨"1", "A", "a@x", "active", 4⟩], [], [], ⟨"rotation", true, 3⟩⟩ "zzz"
        ⟨none, some "B", none, none, none⟩
      = (⟨[⟨"1", "A", "a@x", "active", 4⟩], [], [], ⟨"rotation", true, 3⟩⟩, none) ∧
    updateMember ⟨[⟨"1", "A", "a@x", "active", 4⟩], [], [], ⟨"rotation", true, 3⟩⟩ "1"
        ⟨none, some "B", none, none, none⟩
      = (⟨[⟨"1", "B", "a@x", "active", 4⟩], [], [], ⟨"rotation", true, 3⟩⟩,
         some ⟨"1", "B", "a@x", "active", 4⟩) := by
  constructor
  · exact (update_notFound_and_merge _ "zzz" ⟨none, some "B", none, none, none⟩
      ⟨none, none, none, none, none⟩).1 (by decide)
  · rw [(update_notFound_and_merge _ "1" ⟨none, some "B", none, none, none⟩
      ⟨none, none, none, none, none⟩).2.2.1 0 (by decide)]
    decide

/-- One marking pass leaves no matching un-notified entry behind: filtering
the marked list for due, un-notified entries yields nothing, and re-marking
it is the identity. -/
theorem scan_mark_filter (target : Date) : ∀ (l : List ScheduleEntry),
    ((l.map (fun e => if e.date == target && !e.notified
        then { e with notified := true } else e)).filter
      (fun e => e.date == target && !e.notified) = []) ∧
    ((l.map (fun e => if e.date == target && !e.notified
        then { e with notified := true } else e)).map
      (fun e => if e.date == target && !e.notified
        then { e with notified := true } else e)
      = l.map (fun e => if e.date == target && !e.notified
          then { e with notified := true } else e)) := by
  intro l
  induction l with
  | nil => exact ⟨rfl, rfl⟩
  | cons e es ih =>
    by_cases hp : (e.date == target && !e.notified) = true
    · have hmarked : ((({ e with notified := true } : ScheduleEntry).date == target
          && !({ e with notified := true } : ScheduleEntry).notified)) = false := by
        simp
      refine ⟨?_, ?_⟩
      · simp only [List.map_cons]
        rw [if_pos hp]
        simp only [List.filter_cons, hmarked, Bool.false_eq_true, if_false]
        exact ih.1
      · simp only [List.map_cons]
        rw [if_pos hp]
        simp only [hmarked, Bool.false_eq_true, if_false]
        exact congrArg _ ih.2
    · have hp2 : (e.date == target && !e.notified) = false := by
        revert hp
        cases e.date == target && !e.notified <;> simp
      refine ⟨?_, ?_⟩
      · simp only [List.map_cons]
        rw [if_neg hp]
        simp only [List.filter_cons, hp2, Bool.false_eq_true, if_false]
        exact ih.1
      · simp only [List.map_cons]
        rw [if_neg hp, if_neg hp]
        exact congrArg _ ih.2

/-- C8: the notification scan is a no-op when notifications are disabled;
when enabled it fires the sink for exactly the schedule entries whose date
equals `today + notificationDays` and whose `notified` flag is false,
setting the flag on those entries; and an immediately repeated scan with
unchanged clock and state fires nothing. -/
theorem notification_scan (s : Store) (today : Date) :
    (s.settings.notificationEnabled = false →
      checkUpcomingSchedules s today = (s, [])) ∧
    (s.settings.notificationEnabled = true →
      (checkUpcomingSchedules s today).2
        = s.schedules.filter (fun e =>
            e.date == addDays s.settings.notificationDays today && !e.notified) ∧
      (checkUpcomingSchedules s today).1.schedules
        = s.schedules.map (fun e =>
            if e.date == addDays s.settings.notificationDays today && !e.notified
            then { e with notified := true } else e)) ∧
    checkUpcomingSchedules (checkUpcomingSchedules s today).1 today
      = ((checkUpcomingSchedules s today).1, []) := by
  refine ⟨?_, ?_, ?_⟩
  · intro h
    simp [checkUpcomingSchedules, h]
  · intro h
    constructor <;> simp [checkUpcomingSchedules, h]
  · by_cases h : s.settings.notificationEnabled
    · simp only [checkUpcomingSchedules, h, Bool.not_true, Bool.false_eq_true, if_false]
      have hs := scan_mark_filter (addDays s.settings.notificationDays today) s.schedules
      rw [hs.1, hs.2]
    · simp [checkUpcomingSchedules, h]

theorem notification_scan_witness :
    checkUpcomingSchedules
        ⟨[], [], [⟨7, "9", "Duty", "1", "Alice", ⟨2024, 1, 10⟩, false⟩],
            ⟨"rotation", false, 3⟩⟩ ⟨2024, 1, 7⟩
      = (⟨[], [], [⟨7, "9", "Duty", "1", "Alice", ⟨2024, 1, 10⟩, false⟩],
            ⟨"rotation", false, 3⟩⟩, []) ∧
    (checkUpcomingSchedules
        ⟨[], [], [⟨7, "9", "Duty", "1", "Alice", ⟨2024, 1, 10⟩, false⟩],
            ⟨"rotation", true, 3⟩⟩ ⟨2024, 1, 7⟩).2
      = [⟨7, "9", "Duty", "1", "Alice", ⟨2024, 1, 10⟩, false⟩] := by
  constructor
  · exact (notification_scan _ ⟨2024, 1, 7⟩).1 (by decide)
  · rw [((notification_scan _ ⟨2024, 1, 7⟩).2.1 (by decide)).1]
    decide

/-- Setting a position to a member with the same id leaves the id map
unchanged. -/
theorem map_id_set (l : List Member) : ∀ (i : Nat) (m' : Member),
    m'.id = (l.getD i mDefault).id →
    (l.set i m').map (fun m => m.id) = l.map (fun m => m.id) := by
  induction l with
  | nil => intro i m' _; rfl
  | cons m ms ih =>
    intro i m' h
    cases i with
    | zero => simp_all
    | succ i =>
      simp only [List.getD_cons_succ] at h
      simp [List.set, ih i m' h]

/-- An update whose patch does not set `id` preserves the id of every
stored member. -/
theorem updateMember_map_id (s : Store) (id : String) (p : MemberPatch)
    (hid : p.id = none) :
    (updateMember s id p).1.members.map (fun m => m.id)
      = s.members.map (fun m => m.id) := by
  unfold updateMember
  cases hf : s.members.findIdx? (fun m => m.id == id) with
  | none => rfl
  | some i =>
    simp only
    exact map_id_set _ i _ (by simp [applyMemberPatch, hid])

theorem activity_map_id_set (l : List Activity) : ∀ (i : Nat) (a' : Activity),
    a'.id = (l.getD i aDefault).id →
    (l.set i a').map (fun a => a.id) = l.map (fun a => a.id) := by
  induction l with
  | nil => intro i a' _; rfl
  | cons a as ih =>
    intro i a' h
    cases i with
    | zero => simp_all
    | succ i =>
      simp only [List.getD_cons_succ] at h
      simp [List.set, ih i a' h]

theorem updateActivity_map_id (s : Store) (id : String) (p : ActivityPatch)
    (hid : p.id = none) :
    (updateActivity s id p).1.activities.map (fun a => a.id)
      = s.activities.map (fun a => a.id) := by
  unfold updateActivity
  cases hf : s.activities.findIdx? (fun a => a.id == id) with
  | none => rfl
  | some i =>
    simp only
    exact activity_map_id_set _ i _ (by simp [applyActivityPatch, hid])

/-- C9 amended: stored ids are stable under every sequence of
`updateMember` / `updateActivity` calls whose patches do not themselves
contain an `id` field; a patch that does contain `id` overwrites the
stored id (see the counterexample). -/
theorem update_id_immutable (s : Store) (ops : List (String × MemberPatch))
    (opsA : List (String × ActivityPatch))
    (hm : ∀ q ∈ ops, (q.2).id = none) (ha : ∀ q ∈ opsA, (q.2).id = none) :
    (applyMemberUpdates s ops).members.map (fun m => m.id)
      = s.members.map (fun m => m.id) ∧
    (applyActivityUpdates s opsA).activities.map (fun a => a.id)
      = s.activities.map (fun a => a.id) := by
  constructor
  · induction ops generalizing s with
    | nil => rfl
    | cons q rest ih =>
      obtain ⟨qid, qp⟩ := q
      simp only [applyMemberUpdates]
      rw [ih _ (fun r hr => hm r (List.mem_cons_of_mem _ hr)),
        updateMember_map_id _ _ _ (hm (qid, qp) (List.mem_cons_self _ _))]
  · induction opsA generalizing s with
    | nil => rfl
    | cons q rest ih =>
      obtain ⟨qid, qp⟩ := q
      simp only [applyActivityUpdates]
      rw [ih _ (fun r hr => ha r (List.mem_cons_of_mem _ hr)),
        updateActivity_map_id _ _ _ (ha (qid, qp) (List.mem_cons_self _ _))]

theorem update_id_immutable_witness :
    (∀ q ∈ [("1", (⟨none, some "B", none, none, none⟩ : MemberPatch))], (q.2).id = none) ∧
    (applyMemberUpdates ⟨[⟨"1", "A", "", "active", 0⟩], [], [], ⟨"rotation", true, 3⟩⟩
        [("1", ⟨none, some "B", none, none, none⟩)]).members.map (fun m => m.id)
      = ([⟨"1", "A", "", "active", 0⟩] : List Member).map (fun m => m.id) :=
  ⟨by decide,
   (update_id_immutable ⟨[⟨"1", "A", "", "active", 0⟩], [], [], ⟨"rotation", true, 3⟩⟩
     [("1", ⟨none, some "B", none, none, none⟩)] [] (by decide) (by decide)).1⟩

/-- C9 as stated is false on the code: `updateMember` with a patch whose
`id` field is present replaces the stored record's id (spread semantics),
so the id is not immutable for arbitrary partialFields. -/
theorem update_id_immutable_cex :
    ¬(((updateMember ⟨[⟨"1", "A", "", "active", 0⟩], [], [], ⟨"rotation", true, 3⟩⟩ "1"
        ⟨some "2", none, none, none, none⟩).1.members.getD 0 mDefault).id = "1") := by
  decide

/-- C10: `addMember` unconditionally overwrites the caller-supplied
`status` and `participationCount` with `'active'` and `0` (assignments,
not fallbacks — an `'inactive'` input status is discarded), preserves
`name` and `email`, assigns the fresh id, and appends the stored record,
returning it; the other collections are untouched. -/
theorem addMember_defaults (s : Store) (newId : String) (m : Member) :
    (addMember s newId m).2.status = "active" ∧
    (addMember s newId m).2.participationCount = 0 ∧
    (addMember s newId m).2.name = m.name ∧
    (addMember s newId m).2.email = m.email ∧
    (addMember s newId m).2.id = newId ∧
    (addMember s newId m).1.members = s.members ++ [(addMember s newId m).2] ∧
    (addMember s newId m).1.activities = s.activities ∧
    (addMember s newId m).1.schedules = s.schedules ∧
    (addMember s newId m).1.settings = s.settings :=
  ⟨rfl, rfl, rfl, rfl, rfl, rfl, rfl, rfl, rfl⟩

end TeamScheduling
